import Mathlib

/-!
Shallow embedding of the Morse console translator (`src/MorseCode.py`).

Python strings are modelled as `List Char` (one entry per Unicode code point,
matching CPython's per-code-point string indexing).  The fixed lookup tables
are transcribed verbatim from the source; Python `dict` construction from a
list of pairs (later duplicate keys overriding earlier ones, insertion order
kept) is modelled by `pyDict`.  Python's `str.strip()` / `str.split()`
whitespace set is modelled by `pyIsSpace`; the per-code-point `str.upper()`
used as a table key is modelled by `pyUpper`, which agrees with CPython on
every code point whose uppercase form is relevant to a `TEXT_TO_MORSE`
lookup: the ASCII letters, plus U+0131 (dotless i, uppercase `I`) and U+017F
(long s, uppercase `S`) — the only non-ASCII code points whose CPython
uppercase is a single character in the table's key set.  All other code
points are left unchanged, which is observationally equivalent for the
lookup: their CPython uppercase (possibly multi-character) is never a table
key, so both the program and the model miss the table on them.
-/

namespace MorseSpec

/-- Predicate for the code points Python's `str.strip()` / `str.split()`
treat as whitespace. -/
def pyIsSpace (c : Char) : Bool :=
  let n := c.toNat
  decide ((9 ≤ n ∧ n ≤ 13) ∨ n = 32 ∨ (28 ≤ n ∧ n ≤ 31) ∨ n = 0x85 ∨ n = 0xA0 ∨
    n = 0x1680 ∨ (0x2000 ≤ n ∧ n ≤ 0x200A) ∨ n = 0x2028 ∨ n = 0x2029 ∨
    n = 0x202F ∨ n = 0x205F ∨ n = 0x3000)

/-- Python `s.strip()`: remove leading and trailing whitespace. -/
def pyStrip (s : List Char) : List Char :=
  ((s.dropWhile pyIsSpace).reverse.dropWhile pyIsSpace).reverse

/-- Python `ch.upper()` for a single code point, as used as a table key:
exact on ASCII letters and on U+0131 (`ı` → `I`) and U+017F (`ſ` → `S`),
the only non-ASCII code points whose CPython uppercase is a single character
in the key set of `TEXT_TO_MORSE`; identity elsewhere, where both the
program's lookup and the model's miss the table. -/
def pyUpper (c : Char) : Char :=
  if c = 'ı' then 'I' else if c = 'ſ' then 'S' else c.toUpper

/-- Python `sep.join(pieces)`. -/
def joinWith (sep : List Char) : List (List Char) → List Char
  | [] => []
  | [w] => w
  | w :: ws => w ++ sep ++ joinWith sep ws

/-- Worker for `pySplitWs`; `acc` holds the current word reversed. -/
def splitWsAux : List Char → List Char → List (List Char)
  | [], acc => if acc.isEmpty then [] else [acc.reverse]
  | c :: rest, acc =>
    if pyIsSpace c then
      if acc.isEmpty then splitWsAux rest [] else acc.reverse :: splitWsAux rest []
    else splitWsAux rest (c :: acc)

/-- Python `s.split()` (no argument): split on runs of whitespace, no empty
pieces, leading and trailing whitespace ignored. -/
def pySplitWs (s : List Char) : List (List Char) := splitWsAux s []

/-- Python `s.split("/")`: split at every slash, keeping empty pieces. -/
def splitOnSlash : List Char → List (List Char)
  | [] => [[]]
  | c :: rest =>
    if c = '/' then [] :: splitOnSlash rest
    else
      match splitOnSlash rest with
      | [] => [[c]]
      | w :: ws => (c :: w) :: ws

/-- One Python `dict` assignment `d[k] = v`: override in place if the key is
present, else append. -/
def dictSet {α β : Type} [BEq α] (d : List (α × β)) (k : α) (v : β) : List (α × β) :=
  if d.any (fun p => p.1 == k) then d.map (fun p => if p.1 == k then (k, v) else p)
  else d ++ [(k, v)]

/-- Python `dict(pairs)` / dict comprehension over a list of pairs. -/
def pyDict {α β : Type} [BEq α] (l : List (α × β)) : List (α × β) :=
  l.foldl (fun d p => dictSet d p.1 p.2) []

/-- The `EMOJI_TO_REFERENCE` table of `src/MorseCode.py` (lines 66-132). -/
def EMOJI_TO_REFERENCE : List (String × String) := [
  ("😀", "GRINNING_FACE"),
  ("😁", "BEAMING_FACE"),
  ("😂", "FACE_WITH_TEARS_OF_JOY"),
  ("😃", "GRINNING_FACE_WITH_BIG_EYES"),
  ("😄", "GRINNING_FACE_WITH_SMILING_EYES"),
  ("😅", "GRINNING_FACE_WITH_SWEAT"),
  ("😆", "GRINNING_SQUINTING_FACE"),
  ("😉", "WINKING_FACE"),
  ("😊", "SMILING_FACE_WITH_SMILING_EYES"),
  ("😍", "SMILING_FACE_WITH_HEART_EYES"),
  ("😘", "FACE_BLOWING_A_KISS"),
  ("😗", "KISSING_FACE"),
  ("😋", "FACE_SAVORING_FOOD"),
  ("😌", "RELIEVED_FACE"),
  ("😏", "SMIRKING_FACE"),
  ("😒", "UNAMUSED_FACE"),
  ("😔", "PENSIVE_FACE"),
  ("😪", "SLEEPY_FACE"),
  ("😓", "DOWNCAST_FACE_WITH_SWEAT"),
  ("😕", "CONFUSED_FACE"),
  ("😲", "ASTONISHED_FACE"),
  ("😞", "DISAPPOINTED_FACE"),
  ("😖", "CONFOUNDED_FACE"),
  ("😢", "CRYING_FACE"),
  ("😭", "LOUDLY_CRYING_FACE"),
  ("🤣", "ROLLING_ON_THE_FLOOR_LAUGHING"),
  ("😳", "FLUSHED_FACE"),
  ("😡", "POUTING_FACE"),
  ("😠", "ANGRY_FACE"),
  ("😤", "FACE_WITH_STEAM_FROM_NOSE"),
  ("😨", "FEARFUL_FACE"),
  ("😰", "ANXIOUS_FACE_WITH_SWEAT"),
  ("😧", "ANGUISHED_FACE"),
  ("😬", "GRIMACING_FACE"),
  ("😐", "NEUTRAL_FACE"),
  ("😑", "EXPRESSIONLESS_FACE"),
  ("😮", "FACE_WITH_OPEN_MOUTH"),
  ("❤️", "RED_HEART"),
  ("💔", "BROKEN_HEART"),
  ("💕", "TWO_HEARTS"),
  ("💖", "SPARKLING_HEART"),
  ("💗", "GROWING_HEART"),
  ("💘", "CUPID"),
  ("💚", "GREEN_HEART"),
  ("💙", "BLUE_HEART"),
  ("💜", "PURPLE_HEART"),
  ("💛", "YELLOW_HEART"),
  ("🎉", "PARTY_POPPER"),
  ("🎊", "CONFETTI_BALL"),
  ("🎈", "BALLOON"),
  ("🎁", "WRAPPED_GIFT"),
  ("⭐", "STAR"),
  ("✨", "SPARKLES"),
  ("🔥", "FIRE"),
  ("👍", "THUMBS_UP"),
  ("👎", "THUMBS_DOWN"),
  ("👋", "WAVING_HAND"),
  ("🙌", "RAISING_HANDS"),
  ("🤝", "HANDSHAKE"),
  ("🚀", "ROCKET"),
  ("🌟", "GLOWING_STAR"),
  ("☀️", "SUN"),
  ("🌙", "MOON"),
  ("⚡", "HIGH_VOLTAGE"),
  ("💧", "WATER_DROPLET")]

/-- `REFERENCE_TO_EMOJI = {v: k for k, v in EMOJI_TO_REFERENCE.items() if v != ""}`
(line 133). -/
def REFERENCE_TO_EMOJI : List (String × String) :=
  pyDict ((EMOJI_TO_REFERENCE.filter (fun p => p.2 != "")).map (fun p => (p.2, p.1)))

/-- The `TEXT_TO_MORSE` table of `src/MorseCode.py` (lines 138-150). -/
def TEXT_TO_MORSE : List (Char × String) := [
  ('A', ".-"), ('B', "-..."), ('C', "-.-."), ('D', "-.."), ('E', "."), ('F', "..-."),
  ('G', "--."), ('H', "...."), ('I', ".."), ('J', ".---"), ('K', "-.-"), ('L', ".-.."),
  ('M', "--"), ('N', "-."), ('O', "---"), ('P', ".--."), ('Q', "--.-"), ('R', ".-."),
  ('S', "..."), ('T', "-"), ('U', "..-"), ('V', "...-"), ('W', ".--"), ('X', "-..-"),
  ('Y', "-.--"), ('Z', "--.."),
  ('0', "-----"), ('1', ".----"), ('2', "..---"), ('3', "...--"), ('4', "....-"),
  ('5', "....."), ('6', "-...."), ('7', "--..."), ('8', "---.."), ('9', "----."),
  ('.', ".-.-.-"), (',', "--..--"), ('?', "..--.."), ('\'', ".----."), ('!', "-.-.--"),
  ('/', "-..-."), ('(', "-.--."), (')', "-.--.-"), ('&', ".-..."), (':', "---..."),
  (';', "-.-.-."), ('=', "-...-"), ('+', ".-.-."), ('-', "-....-"), ('_', "..--.-"),
  ('"', ".-..-."), ('$', "...-..-"), ('@', ".--.-.")]

/-- `MORSE_TO_TEXT = {v: k for k, v in TEXT_TO_MORSE.items()}` (line 151). -/
def MORSE_TO_TEXT : List (String × Char) :=
  pyDict (TEXT_TO_MORSE.map (fun p => (p.2, p.1)))

/-- Python `TEXT_TO_MORSE.get(c)`, the looked-up code as a `List Char`. -/
def lookupTM (c : Char) : Option (List Char) :=
  (TEXT_TO_MORSE.find? (fun p => p.1 == c)).map (fun p => p.2.toList)

/-- Python `MORSE_TO_TEXT.get(tok)`. -/
def lookupMT (tok : List Char) : Option Char :=
  (MORSE_TO_TEXT.find? (fun p => p.1.toList == tok)).map (fun p => p.2)

/-- Python `EMOJI_TO_REFERENCE.get(ch)` for a single code point `ch`
(`ch in EMOJI_TO_REFERENCE` followed by indexing, lines 166-167). -/
def emojiLookup (c : Char) : Option String :=
  (EMOJI_TO_REFERENCE.find? (fun p => p.1 == String.mk [c])).map (fun p => p.2)

/-- Python `REFERENCE_TO_EMOJI[ref]` (line 206). -/
def lookupRE (r : List Char) : Option (List Char) :=
  (REFERENCE_TO_EMOJI.find? (fun p => p.1.toList == r)).map (fun p => p.2.toList)

/-- Stable insertion of a string into a list sorted by descending length
(ties keep the original relative order, as Python's stable `sorted` does). -/
def insertLenDesc (x : String) : List String → List String
  | [] => [x]
  | y :: ys => if y.length ≤ x.length then x :: y :: ys else y :: insertLenDesc x ys

/-- Python `sorted(keys, key=len, reverse=True)` (stable sort by descending
length). -/
def sortLenDesc (l : List String) : List String := l.foldr insertLenDesc []

/-- `sorted(REFERENCE_TO_EMOJI.keys(), key=len, reverse=True)` (line 204). -/
def sortedRefKeys : List (List Char) :=
  (sortLenDesc (REFERENCE_TO_EMOJI.map (fun p => p.1))).map String.toList

/-- The keys of `REFERENCE_TO_EMOJI` in table order. -/
def refKeys : List (List Char) := REFERENCE_TO_EMOJI.map (fun p => p.1.toList)

/-- Lines 168-172 of the source: Morse-encode each character of an emoji
reference name, skipping characters without a (truthy) code. -/
def refToCodes (ref : String) : List (List Char) :=
  ref.toList.filterMap (fun rc =>
    match lookupTM (pyUpper rc) with
    | some code => if code.isEmpty then none else some code
    | none => none)

/-- The per-word encoding loop of `text_to_morse` (lines 161-177): one Morse
token per character, emoji expanded through their reference name, unmapped
characters emitted as a bracketed placeholder. -/
def encodeWord : List Char → List (List Char)
  | [] => []
  | ch :: rest =>
    match emojiLookup ch with
    | some ref => refToCodes ref ++ encodeWord rest
    | none =>
      (match lookupTM (pyUpper ch) with
       | some code => if code.isEmpty then '[' :: ch :: [']'] else code
       | none => '[' :: ch :: [']']) :: encodeWord rest

/-- The word separator `" / "` used by `text_to_morse` (line 179). -/
def wordSep : List Char := (" / ").toList

/-- `text_to_morse` (lines 158-179). -/
def text_to_morse (s : List Char) : List Char :=
  joinWith wordSep ((pySplitWs (pyStrip s)).map (fun w => joinWith [' '] (encodeWord w)))

/-- Fuelled version of the emoji post-pass scan of `morse_to_text`
(lines 199-214).  The fuel only serves termination; `postPass` supplies
enough fuel for the scan to finish (each step consumes at least one
character because every reference key is nonempty). -/
def postPassF : Nat → List Char → List Char
  | _, [] => []
  | 0, _ :: _ => []
  | n + 1, c :: rest =>
    match sortedRefKeys.find? (fun r => r.isPrefixOf (c :: rest)) with
    | some r => (lookupRE r).getD [] ++ postPassF n ((c :: rest).drop r.length)
    | none => c :: postPassF n rest

/-- The emoji post-pass scan of `morse_to_text` (lines 199-214). -/
def postPass (t : List Char) : List Char := postPassF t.length t

/-- Decoding of one stripped word segment of `morse_to_text` (lines 188-214):
tokens without a mapping are dropped, then the emoji post-pass runs. -/
def decodeWord (rw : List Char) : List Char :=
  postPass ((pySplitWs rw).filterMap (fun tok => lookupMT tok))

/-- `morse_to_text` (lines 181-217). -/
def morse_to_text (s : List Char) : List Char :=
  joinWith [' ']
    ((splitOnSlash (pyStrip s)).filterMap (fun raw =>
      let rw := pyStrip raw
      if rw.isEmpty then none else some (decodeWord rw)))

/-- `is_morse_line` (lines 153-156). -/
def is_morse_line (s : List Char) : Bool :=
  let t := pyStrip s
  !t.isEmpty && t.all (fun c => c == '.' || c == '-' || c == '/' || c == ' ' || c == '\t') &&
    t.any (fun c => c == '.' || c == '-')

/-! ### Concrete facts about the fixed tables, established by evaluation -/

set_option maxRecDepth 4000

/-- Every Morse code in the table is nonempty. -/
theorem tm_val_nonempty : ∀ p ∈ TEXT_TO_MORSE, p.2.toList ≠ [] := by decide

/-- Every Morse code in the table consists solely of dots and dashes. -/
theorem tm_val_dotdash : ∀ p ∈ TEXT_TO_MORSE, ∀ c ∈ p.2.toList, c = '.' ∨ c = '-' := by decide

/-- Every key of the symbol table is an ASCII character. -/
theorem tm_key_ascii : ∀ p ∈ TEXT_TO_MORSE, p.1.toNat < 128 := by decide

/-- No key of the symbol table is a whitespace character. -/
theorem tm_key_nospace : ∀ p ∈ TEXT_TO_MORSE, pyIsSpace p.1 = false := by decide

/-- Looking a table code up in the derived reverse table recovers the key. -/
theorem tm_inv : ∀ p ∈ TEXT_TO_MORSE, lookupMT p.2.toList = some p.1 := by decide

/-- The first code point of every emoji key is at least U+2600. -/
theorem emoji_key_head_high : ∀ p ∈ EMOJI_TO_REFERENCE, 0x2600 ≤ (p.1.toList.headD ' ').toNat := by
  decide

/-- The sorted reference-key list is ordered by non-increasing length. -/
theorem sorted_desc : sortedRefKeys.Pairwise (fun a b => b.length ≤ a.length) := by decide

/-- Every sorted reference key is nonempty. -/
theorem sortedRefKeys_ne_nil : ∀ r ∈ sortedRefKeys, r ≠ [] := by decide

/-- Every reference key occurs in the sorted key list. -/
theorem mem_sorted_of_mem_refKeys : ∀ r ∈ refKeys, r ∈ sortedRefKeys := by decide

/-- Every sorted key is a reference key. -/
theorem mem_refKeys_of_mem_sorted : ∀ r ∈ sortedRefKeys, r ∈ refKeys := by decide

/-! ### Generic lemmas about the Python string helpers -/

/-- Bridge between the boolean `isPrefixOf` and the `<+:` relation. -/
theorem isPrefixOfBridge {l₁ l₂ : List Char} : l₁.isPrefixOf l₂ = true ↔ l₁ <+: l₂ :=
  List.isPrefixOf_iff_prefix

/-- The head surviving `dropWhile` fails the predicate. -/
theorem dropWhile_head_false {p : Char → Bool} :
    ∀ {s : List Char} {c : Char} {t : List Char}, s.dropWhile p = c :: t → p c = false := by
  intro s
  induction s with
  | nil => intro c t h; simp [List.dropWhile] at h
  | cons a s ih =>
    intro c t h
    by_cases hp : p a
    · rw [List.dropWhile_cons_of_pos hp] at h
      exact ih h
    · rw [List.dropWhile_cons_of_neg hp] at h
      cases h
      simpa using hp

/-- `dropWhile` is the identity when the first element already fails. -/
theorem dropWhile_eq_self_of_head {p : Char → Bool} {l : List Char} {c : Char}
    (h : l.head? = some c) (hc : p c = false) : l.dropWhile p = l := by
  cases l with
  | nil => simp at h
  | cons a t =>
    simp only [List.head?_cons, Option.some.injEq] at h
    subst h
    simp [List.dropWhile_cons, hc]

/-- A list with non-whitespace first and last characters is unchanged by `pyStrip`. -/
theorem pyStrip_eq_self {l : List Char} {c d : Char} (h1 : l.head? = some c)
    (h2 : pyIsSpace c = false) (h3 : l.getLast? = some d) (h4 : pyIsSpace d = false) :
    pyStrip l = l := by
  unfold pyStrip
  rw [dropWhile_eq_self_of_head h1 h2]
  rw [dropWhile_eq_self_of_head (by rw [List.head?_reverse]; exact h3) h4]
  exact List.reverse_reverse l

/-- `pyStrip` removes exactly the surrounding whitespace of a core with
non-whitespace first and last characters. -/
theorem pyStrip_spaces_around {pre post m : List Char} {c d : Char}
    (hpre : ∀ x ∈ pre, pyIsSpace x = true) (hpost : ∀ x ∈ post, pyIsSpace x = true)
    (h1 : m.head? = some c) (h2 : pyIsSpace c = false)
    (h3 : m.getLast? = some d) (h4 : pyIsSpace d = false) :
    pyStrip (pre ++ (m ++ post)) = m := by
  unfold pyStrip
  rw [List.dropWhile_append_of_pos hpre]
  rw [dropWhile_eq_self_of_head (show (m ++ post).head? = some c by
    rw [List.head?_append, h1]; rfl) h2]
  rw [List.reverse_append]
  rw [List.dropWhile_append_of_pos (by intro x hx; rw [List.mem_reverse] at hx; exact hpost x hx)]
  rw [dropWhile_eq_self_of_head (by rw [List.head?_reverse]; exact h3) h4]
  exact List.reverse_reverse m

/-- Unfolding equation of `joinWith` on a list with at least two pieces. -/
theorem joinWith_cons₂ (sep w x : List Char) (ws : List (List Char)) :
    joinWith sep (w :: x :: ws) = w ++ sep ++ joinWith sep (x :: ws) := rfl

/-- A join starting from a nonempty piece is nonempty. -/
theorem joinWith_ne_nil {sep w : List Char} (rest : List (List Char)) (hw : w ≠ []) :
    joinWith sep (w :: rest) ≠ [] := by
  cases rest with
  | nil => simpa [joinWith] using hw
  | cons x rs =>
    rw [joinWith_cons₂]
    simp [List.append_eq_nil, hw]

/-- The first character of a join is the first character of its first piece. -/
theorem joinWith_head? {sep w : List Char} {rest : List (List Char)} (hw : w ≠ []) :
    (joinWith sep (w :: rest)).head? = w.head? := by
  cases rest with
  | nil => rfl
  | cons x rs =>
    rw [joinWith_cons₂]
    cases w with
    | nil => exact absurd rfl hw
    | cons a t => simp

/-- The default-valued last element of a list is a member of the extended list. -/
theorem getLastD_mem : ∀ (rest : List (List Char)) (w : List Char), rest.getLastD w ∈ w :: rest := by
  intro rest
  induction rest with
  | nil => intro w; simp
  | cons x rs ih =>
    intro w
    rw [List.getLastD_cons]
    exact List.mem_cons_of_mem w (ih x)

/-- The last character of a join of nonempty pieces is the last character of
its last piece. -/
theorem joinWith_getLast? (sep : List Char) :
    ∀ (rest : List (List Char)) (w : List Char), w ≠ [] → (∀ m ∈ rest, m ≠ []) →
      (joinWith sep (w :: rest)).getLast? = (rest.getLastD w).getLast? := by
  intro rest
  induction rest with
  | nil => intro w _ _; rfl
  | cons x rs ih =>
    intro w hw hrest
    have hx : x ≠ [] := hrest x (by simp)
    have hJ : joinWith sep (x :: rs) ≠ [] := joinWith_ne_nil rs hx
    rw [joinWith_cons₂, List.append_assoc, List.getLast?_append, List.getLast?_append]
    have hih := ih x hx (fun m hm => hrest m (List.mem_cons_of_mem x hm))
    obtain ⟨y, hy⟩ := Option.isSome_iff_exists.mp (List.getLast?_isSome.mpr hJ)
    rw [hih] at hy
    rw [List.getLastD_cons, hih, hy]
    rfl

/-- Every character of a join comes from the separator or from one piece. -/
theorem mem_joinWith {sep : List Char} :
    ∀ {l : List (List Char)} {c : Char}, c ∈ joinWith sep l → c ∈ sep ∨ ∃ m ∈ l, c ∈ m := by
  intro l
  induction l with
  | nil => intro c h; simp [joinWith] at h
  | cons w rest ih =>
    cases rest with
    | nil => intro c h; exact Or.inr ⟨w, by simp, h⟩
    | cons x rs =>
      intro c h
      rw [joinWith_cons₂] at h
      rcases List.mem_append.mp h with h1 | h2
      · rcases List.mem_append.mp h1 with h3 | h4
        · exact Or.inr ⟨w, by simp, h3⟩
        · exact Or.inl h4
      · rcases ih h2 with h5 | ⟨m, hm, hcm⟩
        · exact Or.inl h5
        · exact Or.inr ⟨m, List.mem_cons_of_mem w hm, hcm⟩

/-- `List.map` distributes over `joinWith`. -/
theorem map_joinWith (f : Char → Char) (sep : List Char) :
    ∀ l : List (List Char), (joinWith sep l).map f = joinWith (sep.map f) (l.map (List.map f)) := by
  intro l
  induction l with
  | nil => rfl
  | cons w rest ih =>
    cases rest with
    | nil => rfl
    | cons x rs =>
      rw [joinWith_cons₂, List.map_cons, List.map_cons, joinWith_cons₂]
      simp only [List.map_append]
      rw [ih, List.map_cons]

/-! ### Lemmas about the whitespace splitter -/

/-- Leading whitespace is skipped by the splitter. -/
theorem pySplitWs_space {c : Char} {s : List Char} (h : pyIsSpace c = true) :
    pySplitWs (c :: s) = pySplitWs s := by
  simp [pySplitWs, splitWsAux, h]

/-- Consuming a run of non-whitespace characters accumulates them reversed. -/
theorem splitWsAux_chunk :
    ∀ (w s acc : List Char), (∀ c ∈ w, pyIsSpace c = false) →
      splitWsAux (w ++ s) acc = splitWsAux s (w.reverse ++ acc) := by
  intro w
  induction w with
  | nil => intro s acc _; simp
  | cons c w' ih =>
    intro s acc h
    have hc : pyIsSpace c = false := h c (by simp)
    rw [List.cons_append]
    show splitWsAux (c :: (w' ++ s)) acc = _
    rw [show splitWsAux (c :: (w' ++ s)) acc = splitWsAux (w' ++ s) (c :: acc) by
      simp [splitWsAux, hc]]
    rw [ih s (c :: acc) (fun x hx => h x (List.mem_cons_of_mem c hx))]
    simp

/-- A single all-non-whitespace word splits to itself. -/
theorem pySplitWs_word {w : List Char} (hne : w ≠ []) (hw : ∀ c ∈ w, pyIsSpace c = false) :
    pySplitWs w = [w] := by
  unfold pySplitWs
  have h2 := splitWsAux_chunk w [] [] hw
  rw [List.append_nil] at h2
  rw [h2]
  simp [splitWsAux, hne]

/-- A word followed by whitespace splits to the word and the split of the rest. -/
theorem pySplitWs_word_cons {w : List Char} {c : Char} {s : List Char} (hne : w ≠ [])
    (hw : ∀ x ∈ w, pyIsSpace x = false) (hc : pyIsSpace c = true) :
    pySplitWs (w ++ c :: s) = w :: pySplitWs s := by
  unfold pySplitWs
  rw [splitWsAux_chunk w (c :: s) [] hw]
  simp [splitWsAux, hc, hne]

/-- Splitting a single-space join of nonempty whitespace-free words recovers
the words. -/
theorem split_join :
    ∀ ws : List (List Char), (∀ w ∈ ws, w ≠ [] ∧ ∀ c ∈ w, pyIsSpace c = false) →
      pySplitWs (joinWith [' '] ws) = ws := by
  intro ws
  induction ws with
  | nil => intro _; rfl
  | cons w rest ih =>
    intro h
    obtain ⟨hne, hw⟩ := h w (by simp)
    cases rest with
    | nil => exact pySplitWs_word hne hw
    | cons x rs =>
      rw [joinWith_cons₂, List.append_assoc]
      rw [show ([' '] : List Char) ++ joinWith [' '] (x :: rs) = ' ' :: joinWith [' '] (x :: rs)
        from rfl]
      rw [pySplitWs_word_cons hne hw (by decide)]
      rw [ih (fun m hm => h m (List.mem_cons_of_mem w hm))]

/-- A leading run of whitespace is ignored by the splitter. -/
theorem pySplitWs_pre :
    ∀ (pre s : List Char), (∀ c ∈ pre, pyIsSpace c = true) →
      pySplitWs (pre ++ s) = pySplitWs s := by
  intro pre
  induction pre with
  | nil => intro s _; rfl
  | cons c pre' ih =>
    intro s h
    rw [List.cons_append, pySplitWs_space (h c (by simp))]
    exact ih s (fun x hx => h x (List.mem_cons_of_mem c hx))

/-- An all-whitespace string splits to no words. -/
theorem pySplitWs_all_space {s : List Char} (h : ∀ c ∈ s, pyIsSpace c = true) :
    pySplitWs s = [] := by
  have h2 := pySplitWs_pre s [] h
  rw [List.append_nil] at h2
  rw [h2]
  rfl

/-- A word followed by any run of trailing whitespace splits to just the word. -/
theorem pySplitWs_word_post {w post : List Char} (hwne : w ≠ [])
    (hw : ∀ c ∈ w, pyIsSpace c = false) (hpost : ∀ c ∈ post, pyIsSpace c = true) :
    pySplitWs (w ++ post) = [w] := by
  cases post with
  | nil => rw [List.append_nil]; exact pySplitWs_word hwne hw
  | cons c rest =>
    rw [pySplitWs_word_cons hwne hw (hpost c (by simp))]
    rw [pySplitWs_all_space (fun x hx => hpost x (List.mem_cons_of_mem c hx))]

/-- Decomposition of an input line: each word paired with the whitespace run
that follows it. -/
def wordChunks : List (List Char × List Char) → List Char
  | [] => []
  | p :: rest => p.1 ++ (p.2 ++ wordChunks rest)

/-- Splitting an interleaving of words and nonempty whitespace runs recovers
exactly the words, whatever the runs are. -/
theorem splitWs_chunks :
    ∀ (ps : List (List Char × List Char)) (wlast post : List Char),
      (∀ p ∈ ps, p.1 ≠ [] ∧ (∀ c ∈ p.1, pyIsSpace c = false) ∧ p.2 ≠ [] ∧
        (∀ c ∈ p.2, pyIsSpace c = true)) →
      wlast ≠ [] → (∀ c ∈ wlast, pyIsSpace c = false) →
      (∀ c ∈ post, pyIsSpace c = true) →
      pySplitWs (wordChunks ps ++ (wlast ++ post)) = ps.map Prod.fst ++ [wlast] := by
  intro ps
  induction ps with
  | nil =>
    intro wlast post _ hwne hwns hpost
    show pySplitWs ([] ++ (wlast ++ post)) = [wlast]
    rw [List.nil_append]
    exact pySplitWs_word_post hwne hwns hpost
  | cons p ps' ih =>
    intro wlast post hps hwne hwns hpost
    obtain ⟨hp1, hp2, hp3, hp4⟩ := hps p (by simp)
    cases hsp : p.2 with
    | nil => exact absurd hsp hp3
    | cons c sp' =>
      have hre : wordChunks (p :: ps') ++ (wlast ++ post) =
          p.1 ++ (c :: (sp' ++ (wordChunks ps' ++ (wlast ++ post)))) := by
        show (p.1 ++ (p.2 ++ wordChunks ps')) ++ (wlast ++ post) = _
        rw [hsp]
        simp
      rw [hre]
      rw [pySplitWs_word_cons hp1 hp2 (hp4 c (by rw [hsp]; simp))]
      rw [pySplitWs_pre sp' _ (fun x hx => hp4 x (by rw [hsp]; exact List.mem_cons_of_mem c hx))]
      rw [ih wlast post (fun q hq => hps q (List.mem_cons_of_mem p hq)) hwne hwns hpost]
      rfl

/-- The splitter never returns the empty list when the accumulator is nonempty. -/
theorem splitWsAux_ne_nil : ∀ (s acc : List Char), acc ≠ [] → splitWsAux s acc ≠ [] := by
  intro s
  induction s with
  | nil => intro acc h; simp [splitWsAux, h]
  | cons c rest ih =>
    intro acc h
    by_cases hc : pyIsSpace c
    · simp [splitWsAux, hc, h]
    · rw [show splitWsAux (c :: rest) acc = splitWsAux rest (c :: acc) by
        simp [splitWsAux, hc]]
      exact ih (c :: acc) (by simp)

/-- Every word produced by the splitter is nonempty, whitespace-free, and made
of characters of the input (or of the accumulator). -/
theorem splitWsAux_sound :
    ∀ (s acc : List Char), (∀ c ∈ acc, pyIsSpace c = false) →
      ∀ w ∈ splitWsAux s acc, w ≠ [] ∧ ∀ c ∈ w, pyIsSpace c = false ∧ (c ∈ s ∨ c ∈ acc) := by
  intro s
  induction s with
  | nil =>
    intro acc hacc w hw
    cases acc with
    | nil => simp [splitWsAux] at hw
    | cons a t =>
      rw [show splitWsAux [] (a :: t) = [(a :: t).reverse] by simp [splitWsAux]] at hw
      rw [List.mem_singleton] at hw
      subst hw
      refine ⟨by simp, ?_⟩
      intro c hc
      rw [List.mem_reverse] at hc
      exact ⟨hacc c hc, Or.inr hc⟩
  | cons x rest ih =>
    intro acc hacc w hw
    by_cases hx : pyIsSpace x
    · rw [show splitWsAux (x :: rest) acc =
          if acc.isEmpty then splitWsAux rest [] else acc.reverse :: splitWsAux rest [] by
        simp [splitWsAux, hx]] at hw
      by_cases hae : acc.isEmpty
      · rw [if_pos hae] at hw
        obtain ⟨h1, h2⟩ := ih [] (by simp) w hw
        refine ⟨h1, fun c hc => ?_⟩
        obtain ⟨h3, h4⟩ := h2 c hc
        refine ⟨h3, Or.inl ?_⟩
        rcases h4 with h5 | h5
        · exact List.mem_cons_of_mem x h5
        · simp at h5
      · rw [if_neg hae] at hw
        rcases List.mem_cons.mp hw with h1 | h1
        · subst h1
          refine ⟨by simpa [List.isEmpty_iff] using hae, fun c hc => ?_⟩
          rw [List.mem_reverse] at hc
          exact ⟨hacc c hc, Or.inr hc⟩
        · obtain ⟨h2, h3⟩ := ih [] (by simp) w h1
          refine ⟨h2, fun c hc => ?_⟩
          obtain ⟨h4, h5⟩ := h3 c hc
          refine ⟨h4, Or.inl ?_⟩
          rcases h5 with h6 | h6
          · exact List.mem_cons_of_mem x h6
          · simp at h6
    · rw [show splitWsAux (x :: rest) acc = splitWsAux rest (x :: acc) by
        simp [splitWsAux, hx]] at hw
      have hacc' : ∀ c ∈ x :: acc, pyIsSpace c = false := by
        intro c hc
        rcases List.mem_cons.mp hc with h1 | h1
        · subst h1; simpa using hx
        · exact hacc c h1
      obtain ⟨h1, h2⟩ := ih (x :: acc) hacc' w hw
      refine ⟨h1, fun c hc => ?_⟩
      obtain ⟨h3, h4⟩ := h2 c hc
      refine ⟨h3, ?_⟩
      rcases h4 with h5 | h5
      · exact Or.inl (List.mem_cons_of_mem x h5)
      · rcases List.mem_cons.mp h5 with h6 | h6
        · subst h6; exact Or.inl (by simp)
        · exact Or.inr h6

/-- Soundness of `pySplitWs`: words are nonempty, whitespace-free, and drawn
from the input. -/
theorem pySplitWs_sound {s : List Char} :
    ∀ w ∈ pySplitWs s, w ≠ [] ∧ ∀ c ∈ w, pyIsSpace c = false ∧ c ∈ s := by
  intro w hw
  obtain ⟨h1, h2⟩ := splitWsAux_sound s [] (by simp) w hw
  refine ⟨h1, fun c hc => ?_⟩
  obtain ⟨h3, h4⟩ := h2 c hc
  refine ⟨h3, ?_⟩
  rcases h4 with h5 | h5
  · exact h5
  · simp at h5

/-! ### Lemmas about the slash splitter -/

/-- The slash splitter never returns an empty list of segments. -/
theorem splitOnSlash_ne_nil : ∀ s : List Char, splitOnSlash s ≠ [] := by
  intro s
  induction s with
  | nil => simp [splitOnSlash]
  | cons c rest ih =>
    by_cases hc : c = '/'
    · simp [splitOnSlash, hc]
    · rw [show splitOnSlash (c :: rest) =
          (match splitOnSlash rest with
           | [] => [[c]]
           | w :: ws => (c :: w) :: ws) by
        simp [splitOnSlash, hc]]
      cases h : splitOnSlash rest <;> simp

/-- Prepending slash-free characters extends the first segment. -/
theorem splitOnSlash_cons_append :
    ∀ (a s w : List Char) (ws : List (List Char)), splitOnSlash s = w :: ws →
      (∀ c ∈ a, c ≠ '/') → splitOnSlash (a ++ s) = (a ++ w) :: ws := by
  intro a
  induction a with
  | nil => intro s w ws h _; simpa using h
  | cons c a' ih =>
    intro s w ws h hno
    have hc : c ≠ '/' := hno c (by simp)
    rw [List.cons_append]
    rw [show splitOnSlash (c :: (a' ++ s)) =
        (match splitOnSlash (a' ++ s) with
         | [] => [[c]]
         | w :: ws => (c :: w) :: ws) by
      simp [splitOnSlash, hc]]
    rw [ih s w ws h (fun x hx => hno x (List.mem_cons_of_mem c hx))]
    simp

/-! ### Lemmas about the emoji post-pass -/

/-- On a list sorted by non-increasing length, `find?` returns a match of
maximal length. -/
theorem find?_longest :
    ∀ l : List (List Char), l.Pairwise (fun a b => b.length ≤ a.length) →
      ∀ (t r : List Char), l.find? (fun x => x.isPrefixOf t) = some r →
        ∀ r' ∈ l, r'.isPrefixOf t = true → r'.length ≤ r.length := by
  intro l
  induction l with
  | nil => intro _ t r h; simp at h
  | cons a tl ih =>
    intro hsort t r h r' hr' hm
    rw [List.pairwise_cons] at hsort
    obtain ⟨ha, htl⟩ := hsort
    by_cases hma : a.isPrefixOf t
    · have hstep : List.find? (fun x => x.isPrefixOf t) (a :: tl) = some a := by
        simp [List.find?_cons, hma]
      rw [hstep] at h
      cases h
      rcases List.mem_cons.mp hr' with h1 | h1
      · subst h1; exact Nat.le_refl _
      · exact ha r' h1
    · have hstep : List.find? (fun x => x.isPrefixOf t) (a :: tl) =
          List.find? (fun x => x.isPrefixOf t) tl := by
        simp [List.find?_cons, hma]
      rw [hstep] at h
      rcases List.mem_cons.mp hr' with h1 | h1
      · subst h1; exact absurd hm (by simpa using hma)
      · exact ih htl t r h r' h1 hm

/-- Any fuel at least the length of the input makes `postPassF` agree with
`postPass`. -/
theorem postPassF_eq :
    ∀ (n : Nat) (t : List Char), t.length ≤ n → postPassF n t = postPass t := by
  intro n
  induction n using Nat.strong_induction_on with
  | _ n ih =>
    intro t ht
    cases t with
    | nil => cases n <;> rfl
    | cons c rest =>
      cases n with
      | zero => simp at ht
      | succ m =>
        have hm : rest.length ≤ m := by simpa using ht
        show postPassF (m + 1) (c :: rest) = postPassF (c :: rest).length (c :: rest)
        rw [show (c :: rest).length = rest.length + 1 from rfl]
        cases hf : sortedRefKeys.find? (fun r => r.isPrefixOf (c :: rest)) with
        | none =>
          simp only [postPassF, hf]
          cases Nat.eq_or_lt_of_le hm with
          | inl he => rw [he]
          | inr hlt =>
            rw [ih rest.length (by omega) rest (Nat.le_refl _)]
            rw [ih m (by omega) rest hm]
        | some r =>
          have hrmem := List.mem_of_find?_eq_some hf
          have hrne : r ≠ [] := sortedRefKeys_ne_nil r hrmem
          have hrlen : 1 ≤ r.length := by
            cases r with
            | nil => exact absurd rfl hrne
            | cons _ _ => simp
          simp only [postPassF, hf]
          have hd : ((c :: rest).drop r.length).length ≤ rest.length := by
            simp only [List.length_drop]
            simp only [List.length_cons]
            omega
          congr 1
          rw [ih m (by omega) _ (Nat.le_trans hd hm)]
          cases Nat.eq_or_lt_of_le (Nat.le_trans hd hm) with
          | inl _ =>
            rw [ih rest.length (by omega) _ hd]
          | inr _ =>
            rw [ih rest.length (by omega) _ hd]

/-- Unfolding of `postPass` when the sorted key scan finds a match. -/
theorem postPass_cons_some {c : Char} {rest r : List Char}
    (hf : sortedRefKeys.find? (fun x => x.isPrefixOf (c :: rest)) = some r) :
    postPass (c :: rest) = (lookupRE r).getD [] ++ postPass ((c :: rest).drop r.length) := by
  have hrmem := List.mem_of_find?_eq_some hf
  have hrne : r ≠ [] := sortedRefKeys_ne_nil r hrmem
  have hrlen : 1 ≤ r.length := by
    cases r with
    | nil => exact absurd rfl hrne
    | cons _ _ => simp
  show postPassF (c :: rest).length (c :: rest) = _
  rw [show (c :: rest).length = rest.length + 1 from rfl]
  simp only [postPassF, hf]
  congr 1
  apply postPassF_eq
  simp only [List.length_drop, List.length_cons]
  omega

/-- Unfolding of `postPass` when the sorted key scan finds no match. -/
theorem postPass_cons_none {c : Char} {rest : List Char}
    (hf : sortedRefKeys.find? (fun x => x.isPrefixOf (c :: rest)) = none) :
    postPass (c :: rest) = c :: postPass rest := by
  show postPassF (c :: rest).length (c :: rest) = _
  rw [show (c :: rest).length = rest.length + 1 from rfl]
  simp only [postPassF, hf]
  rfl

/-- The post-pass is the identity when no reference key matches anywhere. -/
theorem postPass_id :
    ∀ t : List Char, (∀ t', t' <:+ t → ∀ r ∈ sortedRefKeys, r.isPrefixOf t' = false) →
      postPass t = t := by
  intro t
  induction t with
  | nil => intro _; rfl
  | cons c rest ih =>
    intro h
    have hf : sortedRefKeys.find? (fun x => x.isPrefixOf (c :: rest)) = none :=
      List.find?_eq_none.mpr (fun r hr => by
        rw [h (c :: rest) List.suffix_rfl r hr]
        simp)
    rw [postPass_cons_none hf]
    rw [ih (fun t' ht' r hr => h t' (ht'.trans (List.suffix_cons c rest)) r hr)]

/-! ### Lemmas about the symbol lookups and per-word encoding -/

/-- Characterization of a successful symbol-table lookup. -/
theorem lookupTM_spec {c : Char} {code : List Char} (h : lookupTM c = some code) :
    ∃ p ∈ TEXT_TO_MORSE, p.1 = c ∧ p.2.toList = code := by
  unfold lookupTM at h
  cases hf : TEXT_TO_MORSE.find? (fun p => p.1 == c) with
  | none => rw [hf] at h; simp at h
  | some p =>
    rw [hf] at h
    simp only [Option.map_some', Option.some.injEq] at h
    have hm := List.mem_of_find?_eq_some hf
    have hp := List.find?_some hf
    exact ⟨p, hm, by simpa using hp, h⟩

/-- Morse codes returned by the lookup are nonempty. -/
theorem code_ne_nil {c : Char} {code : List Char} (h : lookupTM c = some code) : code ≠ [] := by
  obtain ⟨p, hm, _, hcode⟩ := lookupTM_spec h
  rw [← hcode]
  exact tm_val_nonempty p hm

/-- Morse codes returned by the lookup are made of dots and dashes. -/
theorem code_dotdash {c : Char} {code : List Char} (h : lookupTM c = some code) :
    ∀ ch ∈ code, ch = '.' ∨ ch = '-' := by
  obtain ⟨p, hm, _, hcode⟩ := lookupTM_spec h
  rw [← hcode]
  exact tm_val_dotdash p hm

/-- The reverse table inverts a successful forward lookup. -/
theorem lookupMT_code {c : Char} {code : List Char} (h : lookupTM c = some code) :
    lookupMT code = some c := by
  obtain ⟨p, hm, hp1, hcode⟩ := lookupTM_spec h
  have hx := tm_inv p hm
  rw [hcode, hp1] at hx
  exact hx

/-- Characters with a Morse code are ASCII. -/
theorem lookupTM_ascii {c : Char} {code : List Char} (h : lookupTM c = some code) :
    c.toNat < 128 := by
  obtain ⟨p, hm, hp1, _⟩ := lookupTM_spec h
  rw [← hp1]
  exact tm_key_ascii p hm

/-- Characters with a Morse code are not whitespace. -/
theorem lookupTM_key_nospace {c : Char} {code : List Char} (h : lookupTM c = some code) :
    pyIsSpace c = false := by
  obtain ⟨p, hm, hp1, _⟩ := lookupTM_spec h
  rw [← hp1]
  exact tm_key_nospace p hm

/-- ASCII-ness transfers back through `Char.toUpper`. -/
theorem toUpper_ascii {c : Char} (h : c.toUpper.toNat < 128) : c.toNat < 128 := by
  by_cases hc : c.toNat ≥ 97 ∧ c.toNat ≤ 122
  · omega
  · have he : c.toUpper = c := by
      show (if c.toNat ≥ 97 ∧ c.toNat ≤ 122 then Char.ofNat (c.toNat - 32) else c) = c
      rw [if_neg hc]
    rw [he] at h
    exact h

/-- Whitespace characters are unchanged by `Char.toUpper`. -/
theorem toUpper_eq_self_of_space {c : Char} (h : pyIsSpace c = true) : c.toUpper = c := by
  simp only [pyIsSpace, decide_eq_true_eq] at h
  show (if c.toNat ≥ 97 ∧ c.toNat ≤ 122 then Char.ofNat (c.toNat - 32) else c) = c
  rw [if_neg (by omega)]

/-- Characters below U+2600 never hit the emoji table. -/
theorem emojiLookup_none_of_lt {c : Char} (h : c.toNat < 0x2600) : emojiLookup c = none := by
  unfold emojiLookup
  have hf : EMOJI_TO_REFERENCE.find? (fun p => p.1 == String.mk [c]) = none := by
    apply List.find?_eq_none.mpr
    intro p hp heq
    have hkey : p.1 = String.mk [c] := by simpa using heq
    have hh := emoji_key_head_high p hp
    rw [hkey] at hh
    have : (String.mk [c]).toList = [c] := rfl
    rw [this] at hh
    simp only [List.headD_cons] at hh
    omega
  rw [hf]
  rfl

/-- On characters other than the two uppercase specials, `pyUpper` is ASCII
uppercasing. -/
theorem pyUpper_eq_toUpper {c : Char} (h1 : c ≠ 'ı') (h2 : c ≠ 'ſ') :
    pyUpper c = c.toUpper := by
  simp [pyUpper, h1, h2]

/-- A character whose `pyUpper` image is in the symbol table lies below
U+2600. -/
theorem pyUpper_bound {c : Char} (h : (lookupTM (pyUpper c)).isSome = true) :
    c.toNat < 0x2600 := by
  by_cases h1 : c = 'ı'
  · subst h1; decide
  · by_cases h2 : c = 'ſ'
    · subst h2; decide
    · rw [pyUpper_eq_toUpper h1 h2] at h
      cases hl : lookupTM c.toUpper with
      | none => rw [hl] at h; simp at h
      | some code =>
        have := toUpper_ascii (lookupTM_ascii hl)
        omega

/-- If the uppercase form (with CPython semantics) of a character is in the
symbol table, `pyUpper` agrees with ASCII uppercasing on it. -/
theorem pyUpper_eq_toUpper_of_dom {c : Char} (h : (lookupTM c.toUpper).isSome = true) :
    pyUpper c = c.toUpper := by
  cases hl : lookupTM c.toUpper with
  | none => rw [hl] at h; simp at h
  | some code =>
    have hc : c.toNat < 128 := toUpper_ascii (lookupTM_ascii hl)
    have h1 : c ≠ 'ı' := by
      intro he
      subst he
      exact absurd hc (by decide)
    have h2 : c ≠ 'ſ' := by
      intro he
      subst he
      exact absurd hc (by decide)
    exact pyUpper_eq_toUpper h1 h2

/-- A character whose uppercase form is in the symbol table never triggers
the emoji branch of the encoder. -/
theorem emojiLookup_of_dom {c : Char} (h : (lookupTM (pyUpper c)).isSome = true) :
    emojiLookup c = none := emojiLookup_none_of_lt (pyUpper_bound h)

/-- A character whose uppercase form is in the symbol table is not whitespace. -/
theorem notSpace_of_dom {c : Char} (h : (lookupTM c.toUpper).isSome = true) :
    pyIsSpace c = false := by
  cases hsp : pyIsSpace c with
  | false => rfl
  | true =>
    have he : c.toUpper = c := toUpper_eq_self_of_space hsp
    rw [he] at h
    cases hl : lookupTM c with
    | none => rw [hl] at h; simp at h
    | some code =>
      rw [lookupTM_key_nospace hl] at hsp
      cases hsp

/-- The Morse code of a character, as produced by the encoder on in-table
characters. -/
def codeOf (c : Char) : List Char := (lookupTM (pyUpper c)).getD []

/-- On a word of in-table characters the encoder emits exactly one code per
character. -/
theorem encodeWord_eq_map {w : List Char} (h : ∀ c ∈ w, (lookupTM (pyUpper c)).isSome = true) :
    encodeWord w = w.map codeOf := by
  induction w with
  | nil => rfl
  | cons c rest ih =>
    have hc := h c (by simp)
    have hemoji : emojiLookup c = none := emojiLookup_of_dom hc
    cases hl : lookupTM (pyUpper c) with
    | none => rw [hl] at hc; simp at hc
    | some code =>
      have hne : code ≠ [] := code_ne_nil hl
      have hie : code.isEmpty = false := by
        cases code with
        | nil => exact absurd rfl hne
        | cons _ _ => rfl
      rw [show encodeWord (c :: rest) =
          (match lookupTM (pyUpper c) with
           | some code => if code.isEmpty then '[' :: c :: [']'] else code
           | none => '[' :: c :: [']']) :: encodeWord rest by
        simp [encodeWord, hemoji]]
      rw [hl, List.map_cons]
      rw [ih (fun x hx => h x (List.mem_cons_of_mem c hx))]
      congr 1
      · simp only [hie]
        rw [if_neg (by simp)]
        show code = codeOf c
        unfold codeOf
        rw [hl]
        rfl

/-! ### Structure of `morse_to_text` on well-formed Morse lines -/

/-- Conditions on a word segment under which `morse_to_text` strips it cleanly:
nonempty, slash-free, with non-whitespace first and last characters. -/
def GoodSeg (m : List Char) : Prop :=
  m ≠ [] ∧ (∀ c ∈ m, c ≠ '/') ∧ (∃ c, m.head? = some c ∧ pyIsSpace c = false) ∧
    ∃ d, m.getLast? = some d ∧ pyIsSpace d = false

/-- The word separator in explicit character form. -/
theorem wordSep_eq : wordSep = ' ' :: '/' :: [' '] := rfl

/-- A nonempty list has a last element that is a member. -/
theorem getLast?_mem_self : ∀ {l : List Char}, l ≠ [] → ∃ d, l.getLast? = some d ∧ d ∈ l := by
  intro l hl
  obtain ⟨d, hd⟩ := Option.isSome_iff_exists.mp (List.getLast?_isSome.mpr hl)
  exact ⟨d, hd, List.mem_of_mem_getLast? (by rw [hd]; rfl)⟩

/-- Splitting and decoding a separator-joined list of good segments, with
whitespace padding around the segments, recovers one decode per segment. -/
theorem decode_aux :
    ∀ (ms : List (List Char)) (pre post : List Char),
      (∀ c ∈ pre, pyIsSpace c = true ∧ c ≠ '/') →
      (∀ c ∈ post, pyIsSpace c = true ∧ c ≠ '/') →
      (∀ m ∈ ms, GoodSeg m) → ms ≠ [] →
      ((splitOnSlash (pre ++ (joinWith wordSep ms ++ post))).filterMap (fun raw =>
        let rw := pyStrip raw
        if rw.isEmpty then none else some (decodeWord rw))) = ms.map decodeWord := by
  intro ms
  induction ms with
  | nil => intro _ _ _ _ _ hne; exact absurd rfl hne
  | cons m rest ih =>
    intro pre post hpre hpost hgood _
    obtain ⟨hm1, hm2, ⟨c, hc1, hc2⟩, d, hd1, hd2⟩ := hgood m (by simp)
    have hie : m.isEmpty = false := by
      cases m with
      | nil => exact absurd rfl hm1
      | cons _ _ => rfl
    cases rest with
    | nil =>
      rw [show joinWith wordSep [m] = m from rfl]
      have hnoslash : ∀ x ∈ (pre ++ (m ++ post)) ++ [], x ≠ '/' := by
        intro x hx
        rw [List.append_nil] at hx
        rcases List.mem_append.mp hx with h1 | h1
        · exact (hpre x h1).2
        · rcases List.mem_append.mp h1 with h2 | h2
          · exact hm2 x h2
          · exact (hpost x h2).2
      have hsplit := splitOnSlash_cons_append ((pre ++ (m ++ post))) [] [] [] rfl
        (by intro x hx; exact hnoslash x (by simpa using hx))
      rw [List.append_nil] at hsplit
      rw [hsplit]
      have hstrip : pyStrip (pre ++ (m ++ post)) = m :=
        pyStrip_spaces_around (fun x hx => (hpre x hx).1) (fun x hx => (hpost x hx).1)
          hc1 hc2 hd1 hd2
      simp only [List.filterMap_cons, List.filterMap_nil]
      simp [hstrip, hm1]
    | cons m2 rs =>
      rw [joinWith_cons₂]
      have hre : pre ++ ((m ++ wordSep ++ joinWith wordSep (m2 :: rs)) ++ post) =
          (pre ++ (m ++ [' '])) ++
            ('/' :: ([' '] ++ (joinWith wordSep (m2 :: rs) ++ post))) := by
        rw [wordSep_eq]
        simp
      rw [hre]
      have hsplit := splitOnSlash_cons_append (pre ++ (m ++ [' ']))
        ('/' :: ([' '] ++ (joinWith wordSep (m2 :: rs) ++ post)))
        [] (splitOnSlash ([' '] ++ (joinWith wordSep (m2 :: rs) ++ post)))
        (by rw [show splitOnSlash ('/' :: ([' '] ++ (joinWith wordSep (m2 :: rs) ++ post))) =
              [] :: splitOnSlash ([' '] ++ (joinWith wordSep (m2 :: rs) ++ post)) by
            simp [splitOnSlash]])
        (by
          intro x hx
          rcases List.mem_append.mp hx with h1 | h1
          · exact (hpre x h1).2
          · rcases List.mem_append.mp h1 with h2 | h2
            · exact hm2 x h2
            · simp at h2
              subst h2
              decide)
      rw [hsplit, List.append_nil]
      have hstrip : pyStrip (pre ++ (m ++ [' '])) = m :=
        pyStrip_spaces_around (fun x hx => (hpre x hx).1)
          (by intro x hx; simp at hx; subst hx; decide) hc1 hc2 hd1 hd2
      rw [List.filterMap_cons]
      simp only [hstrip, hie]
      rw [if_neg (by simp)]
      rw [ih [' '] post (by intro x hx; simp at hx; subst hx; exact ⟨rfl, by decide⟩) hpost
        (fun x hx => hgood x (List.mem_cons_of_mem m hx)) (by simp)]
      rfl

/-- A separator-joined list of good segments is unchanged by `pyStrip`. -/
theorem join_words_strip {ms : List (List Char)} (hne : ms ≠ [])
    (hgood : ∀ m ∈ ms, GoodSeg m) :
    pyStrip (joinWith wordSep ms) = joinWith wordSep ms := by
  cases ms with
  | nil => exact absurd rfl hne
  | cons m rest =>
    obtain ⟨hm1, _, ⟨c, hc1, hc2⟩, _⟩ := hgood m (by simp)
    have hh : (joinWith wordSep (m :: rest)).head? = some c := by
      rw [joinWith_head? hm1]
      exact hc1
    have hrest_ne : ∀ x ∈ rest, x ≠ [] := fun x hx => (hgood x (List.mem_cons_of_mem m hx)).1
    have hl := joinWith_getLast? wordSep rest m hm1 hrest_ne
    obtain ⟨_, _, _, d, hd1, hd2⟩ := hgood (rest.getLastD m) (getLastD_mem rest m)
    rw [hd1] at hl
    exact pyStrip_eq_self hh hc2 hl hd2

/-- `morse_to_text` on a `" / "`-joined list of good segments decodes each
segment and joins the results with single spaces. -/
theorem morse_to_text_words {ms : List (List Char)} (hne : ms ≠ [])
    (hgood : ∀ m ∈ ms, GoodSeg m) :
    morse_to_text (joinWith wordSep ms) = joinWith [' '] (ms.map decodeWord) := by
  unfold morse_to_text
  rw [join_words_strip hne hgood]
  have h := decode_aux ms [] [] (by simp) (by simp) hgood hne
  rw [List.nil_append, List.append_nil] at h
  rw [h]

/-! ### Encoding a line of in-table words -/

/-- Dots and dashes are not whitespace. -/
theorem dotdash_nospace {c : Char} (h : c = '.' ∨ c = '-') : pyIsSpace c = false := by
  rcases h with rfl | rfl <;> decide

/-- Dots and dashes are not slashes. -/
theorem dotdash_noslash {c : Char} (h : c = '.' ∨ c = '-') : c ≠ '/' := by
  rcases h with rfl | rfl <;> decide

/-- A successful lookup yields exactly `codeOf`. -/
theorem codeOf_spec {c : Char} (h : (lookupTM (pyUpper c)).isSome = true) :
    lookupTM (pyUpper c) = some (codeOf c) := by
  cases hl : lookupTM (pyUpper c) with
  | none => rw [hl] at h; simp at h
  | some code => simp [codeOf, hl]

/-- `text_to_morse` on a single-space join of nonempty whitespace-free words:
strip is the identity and the split recovers the words. -/
theorem text_to_morse_words {ws : List (List Char)} (hne : ws ≠ [])
    (hw : ∀ w ∈ ws, w ≠ [] ∧ ∀ c ∈ w, pyIsSpace c = false) :
    text_to_morse (joinWith [' '] ws) =
      joinWith wordSep (ws.map (fun w => joinWith [' '] (encodeWord w))) := by
  unfold text_to_morse
  cases ws with
  | nil => exact absurd rfl hne
  | cons w rest =>
    obtain ⟨hwne, hwc⟩ := hw w (by simp)
    cases w with
    | nil => exact absurd rfl hwne
    | cons a t =>
      have hh : (joinWith [' '] ((a :: t) :: rest)).head? = some a := by
        rw [joinWith_head? hwne]
        rfl
      have hcs : pyIsSpace a = false := hwc a (by simp)
      have hrest_ne : ∀ x ∈ rest, x ≠ [] :=
        fun x hx => (hw x (List.mem_cons_of_mem (a :: t) hx)).1
      have hl := joinWith_getLast? [' '] rest (a :: t) hwne hrest_ne
      have hlast_mem := getLastD_mem rest (a :: t)
      obtain ⟨hLne, hLc⟩ := hw (rest.getLastD (a :: t)) hlast_mem
      obtain ⟨d, hd1, hd2⟩ := getLast?_mem_self hLne
      rw [hd1] at hl
      rw [pyStrip_eq_self hh hcs hl (hLc d hd2)]
      rw [split_join ((a :: t) :: rest) hw]

/-- Every character of an encoded in-table word is a dot, a dash, or a space. -/
theorem mem_word_morse {w : List Char} (hdom : ∀ c ∈ w, (lookupTM (pyUpper c)).isSome = true) :
    ∀ ch ∈ joinWith [' '] (w.map codeOf), ch = '.' ∨ ch = '-' ∨ ch = ' ' := by
  intro ch hch
  rcases mem_joinWith hch with h1 | ⟨m, hm, hchm⟩
  · simp at h1
    subst h1
    exact Or.inr (Or.inr rfl)
  · obtain ⟨c, hcw, hceq⟩ := List.mem_map.mp hm
    subst hceq
    rcases code_dotdash (codeOf_spec (hdom c hcw)) ch hchm with h | h
    · exact Or.inl h
    · exact Or.inr (Or.inl h)

/-- The encoded form of a nonempty in-table word is a good segment. -/
theorem morseWord_good {w : List Char} (hne : w ≠ [])
    (hdom : ∀ c ∈ w, (lookupTM (pyUpper c)).isSome = true) :
    GoodSeg (joinWith [' '] (w.map codeOf)) := by
  cases w with
  | nil => exact absurd rfl hne
  | cons c0 w' =>
    have h0 : lookupTM (pyUpper c0) = some (codeOf c0) := codeOf_spec (hdom c0 (by simp))
    have hfne : codeOf c0 ≠ [] := code_ne_nil h0
    have hmap : (c0 :: w').map codeOf = codeOf c0 :: w'.map codeOf := rfl
    have hmapne : ∀ x ∈ w'.map codeOf, x ≠ [] := by
      intro x hx
      obtain ⟨y, hy, hyx⟩ := List.mem_map.mp hx
      subst hyx
      exact code_ne_nil (codeOf_spec (hdom y (List.mem_cons_of_mem c0 hy)))
    refine ⟨?_, ?_, ?_, ?_⟩
    · rw [hmap]
      exact joinWith_ne_nil _ hfne
    · intro ch hch
      rcases mem_word_morse hdom ch hch with h | h | h
      · exact dotdash_noslash (Or.inl h)
      · exact dotdash_noslash (Or.inr h)
      · subst h; decide
    · rw [hmap, joinWith_head? hfne]
      cases hcc : codeOf c0 with
      | nil => exact absurd hcc hfne
      | cons a t =>
        refine ⟨a, rfl, ?_⟩
        apply dotdash_nospace
        apply code_dotdash h0
        rw [hcc]
        simp
    · rw [hmap, joinWith_getLast? [' '] (w'.map codeOf) (codeOf c0) hfne hmapne]
      have hLmem := getLastD_mem (w'.map codeOf) (codeOf c0)
      rw [← hmap] at hLmem
      obtain ⟨y, hyw, hyeq⟩ := List.mem_map.mp hLmem
      have hyne : (w'.map codeOf).getLastD (codeOf c0) ≠ [] := by
        rw [← hyeq]
        exact code_ne_nil (codeOf_spec (hdom y hyw))
      obtain ⟨d, hd1, hd2⟩ := getLast?_mem_self hyne
      refine ⟨d, hd1, ?_⟩
      apply dotdash_nospace
      apply code_dotdash (codeOf_spec (hdom y hyw))
      rw [hyeq]
      exact hd2

/-- Decoding the token list of an encoded in-table word recovers the
uppercased characters. -/
theorem filterMap_lookupMT_codes {w : List Char}
    (hdom : ∀ c ∈ w, (lookupTM (pyUpper c)).isSome = true) :
    (w.map codeOf).filterMap (fun tok => lookupMT tok) = w.map pyUpper := by
  induction w with
  | nil => rfl
  | cons c rest ih =>
    rw [List.map_cons, List.filterMap_cons]
    rw [show lookupMT (codeOf c) = some (pyUpper c) from
      lookupMT_code (codeOf_spec (hdom c (by simp)))]
    rw [ih (fun x hx => hdom x (List.mem_cons_of_mem c hx))]
    rfl

/-- `decodeWord` on an encoded in-table word is the post-pass of the
uppercased word. -/
theorem decodeWord_codes {w : List Char}
    (hdom : ∀ c ∈ w, (lookupTM (pyUpper c)).isSome = true) :
    decodeWord (joinWith [' '] (w.map codeOf)) = postPass (w.map pyUpper) := by
  unfold decodeWord
  rw [split_join (w.map codeOf) (by
    intro m hm
    obtain ⟨y, hy, hyx⟩ := List.mem_map.mp hm
    subst hyx
    refine ⟨code_ne_nil (codeOf_spec (hdom y hy)), ?_⟩
    intro c hc
    exact dotdash_nospace (code_dotdash (codeOf_spec (hdom y hy)) c hc))]
  rw [filterMap_lookupMT_codes hdom]

/-- If no reference key occurs inside `t`, the post-pass leaves `t` unchanged. -/
theorem postPass_id_of_noref {t : List Char} (h : ∀ r ∈ refKeys, ¬ r <:+: t) :
    postPass t = t := by
  apply postPass_id
  intro t' ht' r hr
  cases hpf : r.isPrefixOf t' with
  | false => rfl
  | true =>
    have hp : r <+: t' := isPrefixOfBridge.mp hpf
    have hinf : r <:+: t := hp.isInfix.trans ht'.isInfix
    exact absurd hinf (h r (mem_refKeys_of_mem_sorted r hr))

/-- Uppercasing distributes over a single-space join. -/
theorem upper_join (ws : List (List Char)) :
    (joinWith [' '] ws).map Char.toUpper = joinWith [' '] (ws.map (List.map Char.toUpper)) := by
  rw [map_joinWith]
  rw [show ([' '] : List Char).map Char.toUpper = [' '] by decide]

/-! ### The claims -/

/-- C3, counterexample: the table value for the dollar sign is
`"...-..-"`, of length 7, so the claimed bound of 6 fails. -/
theorem claim_C3_counterexample :
    ('$', "...-..-") ∈ TEXT_TO_MORSE ∧ ("...-..-").toList.length = 7 ∧
      TEXT_TO_MORSE.all (fun p => decide (p.2.length ≤ 6)) = false := by decide

/-- C3, amended: every value of `TEXT_TO_MORSE` is a nonempty string of dots
and dashes with length between 1 and 7 inclusive (the dollar sign has the
unique length-7 code). -/
theorem claim_C3 :
    ∀ p ∈ TEXT_TO_MORSE, p.2.toList ≠ [] ∧ (∀ c ∈ p.2.toList, c = '.' ∨ c = '-') ∧
      1 ≤ p.2.length ∧ p.2.length ≤ 7 := by decide

/-- C3, witness: the amended statement applied to the entry for letter A. -/
theorem claim_C3_witness :
    (".-").toList ≠ [] ∧ 1 ≤ (".-").length ∧ (".-").length ≤ 7 := by
  have h := claim_C3 ('A', ".-") (by decide)
  exact ⟨h.1, h.2.2.1, h.2.2.2⟩

/-- C4: the symbol table is injective on values, its inversion has exactly one
entry per Morse code in table order, and looking up any entry's code in the
reverse table returns the entry's character. -/
theorem claim_C4 :
    TEXT_TO_MORSE.Pairwise (fun p q => p.2 ≠ q.2) ∧
    MORSE_TO_TEXT.map (fun p => p.1) = TEXT_TO_MORSE.map (fun p => p.2) ∧
    ∀ p ∈ TEXT_TO_MORSE, lookupMT p.2.toList = some p.1 := by
  refine ⟨by decide, by decide, by decide⟩

/-- C4, witness: the reverse lookup of the code of A returns A. -/
theorem claim_C4_witness : lookupMT ((".-").toList) = some 'A' :=
  claim_C4.2.2 ('A', ".-") (by decide)

/-- C5: `is_morse_line` returns true exactly when the stripped line is
nonempty, consists of dot/dash/slash/space/tab characters only, and contains
at least one dot or dash; plus the four boundary examples. -/
theorem claim_C5 :
    (∀ s : List Char, is_morse_line s = true ↔
      (pyStrip s ≠ [] ∧ (∀ c ∈ pyStrip s, c = '.' ∨ c = '-' ∨ c = '/' ∨ c = ' ' ∨ c = '\t') ∧
        ∃ c ∈ pyStrip s, c = '.' ∨ c = '-')) ∧
    is_morse_line (("   ").toList) = false ∧
    is_morse_line (("/").toList) = false ∧
    is_morse_line ((".-").toList) = true ∧
    is_morse_line (("hello").toList) = false := by
  refine ⟨?_, by decide, by decide, by decide, by decide⟩
  intro s
  show (!(pyStrip s).isEmpty &&
      (pyStrip s).all (fun c => c == '.' || c == '-' || c == '/' || c == ' ' || c == '\t') &&
      (pyStrip s).any (fun c => c == '.' || c == '-')) = true ↔ _
  rw [Bool.and_eq_true, Bool.and_eq_true]
  simp [List.all_eq_true, List.any_eq_true, List.isEmpty_iff, and_assoc, or_assoc]

/-- C5, witness: the classifier accepts the line `".-"`. -/
theorem claim_C5_witness : is_morse_line ((".-").toList) = true := claim_C5.2.2.2.1

/-- The two non-ASCII characters whose CPython uppercase is a symbol-table
key are Morse-encoded through that key, not bracketed, mirroring the program
(`"ſ".upper() = "S"`, `"ı".upper() = "I"` in CPython). -/
theorem encodeWord_nonascii_uppercase :
    encodeWord ['ſ'] = [("...").toList] ∧ encodeWord ['ı'] = [("..").toList] := by
  refine ⟨by decide, by decide⟩

/-- C6: a character that is neither an emoji key nor (after uppercasing) a
symbol-table key is encoded as the bracket-wrapped placeholder at its
position, and in particular `"A€B"` encodes to `".- [€] -..."`. -/
theorem claim_C6 :
    (∀ (c : Char) (w1 w2 : List Char), emojiLookup c = none → lookupTM (pyUpper c) = none →
      encodeWord (w1 ++ c :: w2) = encodeWord w1 ++ ('[' :: c :: [']']) :: encodeWord w2) ∧
    text_to_morse (("A€B").toList) = (".- [€] -...").toList := by
  constructor
  · intro c w1 w2 hemoji htm
    induction w1 with
    | nil => simp [encodeWord, hemoji, htm]
    | cons a w1' ih =>
      rw [List.cons_append]
      cases hea : emojiLookup a with
      | some ref => simp [encodeWord, hea, ih]
      | none => simp [encodeWord, hea, ih]
  · decide

/-- C6, witness: the placeholder law applied to `€` between `A` and `B`. -/
theorem claim_C6_witness :
    encodeWord (['A'] ++ '€' :: ['B']) =
      encodeWord ['A'] ++ ('[' :: '€' :: [']']) :: encodeWord ['B'] :=
  claim_C6.1 '€' ['A'] ['B'] (by decide) (by decide)

/-- C7: a token without a reverse-table entry is dropped silently from a word
segment (decoding of the other tokens continues, no placeholder appears), and
in particular `".- ???? -..."` decodes to `"AB"`. -/
theorem claim_C7 :
    (∀ (ts1 ts2 : List (List Char)) (bad : List Char), lookupMT bad = none →
      (∀ t ∈ ts1 ++ bad :: ts2, t ≠ [] ∧ ∀ c ∈ t, pyIsSpace c = false) →
      decodeWord (joinWith [' '] (ts1 ++ bad :: ts2)) =
        decodeWord (joinWith [' '] (ts1 ++ ts2))) ∧
    morse_to_text ((".- ???? -...").toList) = ("AB").toList := by
  constructor
  · intro ts1 ts2 bad hbad hgood
    unfold decodeWord
    rw [split_join (ts1 ++ bad :: ts2) hgood]
    rw [split_join (ts1 ++ ts2) (by
      intro t ht
      apply hgood t
      rcases List.mem_append.mp ht with h1 | h1
      · exact List.mem_append.mpr (Or.inl h1)
      · exact List.mem_append.mpr (Or.inr (List.mem_cons_of_mem bad h1)))]
    rw [List.filterMap_append, List.filterMap_append, List.filterMap_cons]
    simp [hbad]
  · decide

/-- C7, witness: the drop law applied to the unmapped token `????` between
the codes of A and B. -/
theorem claim_C7_witness :
    decodeWord (joinWith [' '] ([(".-").toList] ++ ("????").toList :: [("-...").toList])) =
      decodeWord (joinWith [' '] ([(".-").toList] ++ [("-...").toList])) :=
  claim_C7.1 [(".-").toList] [("-...").toList] (("????").toList) (by decide) (by decide)

/-- Specialization of `List.find?_some` used to read off the matched predicate. -/
theorem find?_pred {p : List Char → Bool} {l : List (List Char)} {r : List Char}
    (h : l.find? p = some r) : p r = true := List.find?_some h

/-- C9: at each scan position of the post-pass, if some reference key is a
prefix of the remaining text, a longest such key is replaced by its emoji
glyph and the scan advances by its length; otherwise the character is copied
and the scan advances by one. -/
theorem claim_C9 (c : Char) (rest : List Char) :
    ((∃ r ∈ refKeys, r.isPrefixOf (c :: rest) = true) →
      ∃ r ∈ refKeys, r.isPrefixOf (c :: rest) = true ∧
        (∀ q ∈ refKeys, q.isPrefixOf (c :: rest) = true → q.length ≤ r.length) ∧
        postPass (c :: rest) = (lookupRE r).getD [] ++ postPass ((c :: rest).drop r.length)) ∧
    ((∀ r ∈ refKeys, r.isPrefixOf (c :: rest) = false) →
      postPass (c :: rest) = c :: postPass rest) := by
  constructor
  · rintro ⟨r0, hr0, hm0⟩
    have hsome : (sortedRefKeys.find? (fun x => x.isPrefixOf (c :: rest))).isSome := by
      rw [List.find?_isSome]
      exact ⟨r0, mem_sorted_of_mem_refKeys r0 hr0, hm0⟩
    obtain ⟨r, hr⟩ := Option.isSome_iff_exists.mp hsome
    have hpred := find?_pred hr
    refine ⟨r, mem_refKeys_of_mem_sorted r (List.mem_of_find?_eq_some hr),
      hpred, ?_, postPass_cons_some hr⟩
    intro q hq hqm
    exact find?_longest sortedRefKeys sorted_desc (c :: rest) r hr q
      (mem_sorted_of_mem_refKeys q hq) hqm
  · intro h
    apply postPass_cons_none
    apply List.find?_eq_none.mpr
    intro x hx hxp
    have hfalse := h x (mem_refKeys_of_mem_sorted x hx)
    simp only [hfalse] at hxp
    cases hxp

/-- C9, witness: no reference key is a prefix of `"QX"`, so the scan copies
the first character. -/
theorem claim_C9_witness :
    postPass ('Q' :: (("X").toList)) = 'Q' :: postPass (("X").toList) :=
  (claim_C9 'Q' (("X").toList)).2 (by decide)

/-- C2: the multi-code-point emoji key `"❤️"` is present in
`EMOJI_TO_REFERENCE`, but the encoder walks single code points and therefore
never matches it: encoding the glyph yields two bracket placeholders instead
of the Morse tokens of `RED_HEART`, although decoding those tokens does
produce the glyph. -/
theorem claim_C2_bug :
    ("❤️", "RED_HEART") ∈ EMOJI_TO_REFERENCE ∧
    text_to_morse (("❤️").toList) = ("[❤] [️]").toList ∧
    text_to_morse (("RED_HEART").toList) = (".-. . -.. ..--.- .... . .- .-. -").toList ∧
    morse_to_text ((".-. . -.. ..--.- .... . .- .-. -").toList) = ("❤️").toList ∧
    text_to_morse (("❤️").toList) ≠ text_to_morse (("RED_HEART").toList) := by
  refine ⟨by decide, by decide, by decide, by decide, by decide⟩

/-- C1, counterexample: `"STAR"` is made of in-table characters and has no
whitespace, yet decoding its encoding yields the star emoji, not `"STAR"`
(the emoji post-pass cannot be disabled). -/
theorem claim_C1_counterexample :
    ("STAR").toList.all (fun c => (lookupTM c.toUpper).isSome && !pyIsSpace c) = true ∧
    morse_to_text (text_to_morse (("STAR").toList)) = ("⭐").toList ∧
    ("STAR").toList.map Char.toUpper = ("STAR").toList ∧
    ("⭐").toList ≠ ("STAR").toList := by
  refine ⟨by decide, by decide, by decide, by decide⟩

/-- C1, amended: for a line given as nonempty in-table words joined by single
spaces, such that no reference-name key of `REFERENCE_TO_EMOJI` occurs as a
substring of any uppercased word, decoding the encoding yields the uppercased
line with word spacing preserved. -/
theorem claim_C1 (ws : List (List Char))
    (hws : ∀ w ∈ ws, w ≠ [] ∧ ∀ c ∈ w, (lookupTM c.toUpper).isSome = true)
    (href : ∀ w ∈ ws, ∀ r ∈ refKeys, ¬ r <:+: w.map Char.toUpper) :
    morse_to_text (text_to_morse (joinWith [' '] ws)) = (joinWith [' '] ws).map Char.toUpper := by
  have hws' : ∀ w ∈ ws, w ≠ [] ∧ ∀ c ∈ w, (lookupTM (pyUpper c)).isSome = true := by
    intro w hw
    obtain ⟨hw1, hw2⟩ := hws w hw
    refine ⟨hw1, fun c hc => ?_⟩
    rw [pyUpper_eq_toUpper_of_dom (hw2 c hc)]
    exact hw2 c hc
  cases ws with
  | nil => rfl
  | cons w0 rest0 =>
    have hne : w0 :: rest0 ≠ [] := by simp
    have hnospace : ∀ w ∈ w0 :: rest0, w ≠ [] ∧ ∀ c ∈ w, pyIsSpace c = false := by
      intro w hw
      obtain ⟨hw1, hw2⟩ := hws w hw
      exact ⟨hw1, fun c hc => notSpace_of_dom (hw2 c hc)⟩
    rw [text_to_morse_words hne hnospace]
    have hmapeq : (w0 :: rest0).map (fun w => joinWith [' '] (encodeWord w)) =
        (w0 :: rest0).map (fun w => joinWith [' '] (w.map codeOf)) :=
      List.map_congr_left (fun w hw => by rw [encodeWord_eq_map (hws' w hw).2])
    rw [hmapeq]
    have hms_ne : (w0 :: rest0).map (fun w => joinWith [' '] (w.map codeOf)) ≠ [] := by simp
    have hms_good : ∀ m ∈ (w0 :: rest0).map (fun w => joinWith [' '] (w.map codeOf)),
        GoodSeg m := by
      intro m hm
      obtain ⟨w, hw, rfl⟩ := List.mem_map.mp hm
      exact morseWord_good (hws' w hw).1 (hws' w hw).2
    rw [morse_to_text_words hms_ne hms_good]
    rw [List.map_map]
    have hdec : ((w0 :: rest0).map (decodeWord ∘ fun w => joinWith [' '] (w.map codeOf))) =
        (w0 :: rest0).map (List.map Char.toUpper) :=
      List.map_congr_left (fun w hw => by
        show decodeWord (joinWith [' '] (w.map codeOf)) = _
        rw [decodeWord_codes (hws' w hw).2]
        rw [show w.map pyUpper = w.map Char.toUpper from
          List.map_congr_left (fun c hc => pyUpper_eq_toUpper_of_dom ((hws w hw).2 c hc))]
        exact postPass_id_of_noref (href w hw))
    rw [hdec, upper_join]

/-- C1, witness: the amended round trip applied to the line `"hi there"`. -/
theorem claim_C1_witness :
    morse_to_text (text_to_morse (joinWith [' '] [("hi").toList, ("there").toList])) =
      (joinWith [' '] [("hi").toList, ("there").toList]).map Char.toUpper :=
  claim_C1 [("hi").toList, ("there").toList] (by decide) (by decide)

/-- C8: an all-whitespace line encodes to the empty string; for an arbitrary
line decomposed as leading whitespace, words separated by arbitrary nonempty
whitespace runs, and trailing whitespace, the encoder splits off exactly the
words, joins each word's tokens with single spaces and the words with
`" / "`; a single-space join of such words is the special case; and
`"HI THERE"` encodes to `".... .. / - .... . .-. ."`, which decodes back to
`"HI THERE"`. -/
theorem claim_C8 :
    (∀ s : List Char, (∀ c ∈ s, pyIsSpace c = true) → text_to_morse s = []) ∧
    (∀ (pre post : List Char) (ps : List (List Char × List Char)) (wlast : List Char),
      (∀ c ∈ pre, pyIsSpace c = true) → (∀ c ∈ post, pyIsSpace c = true) →
      (∀ p ∈ ps, p.1 ≠ [] ∧ (∀ c ∈ p.1, pyIsSpace c = false) ∧ p.2 ≠ [] ∧
        (∀ c ∈ p.2, pyIsSpace c = true)) →
      wlast ≠ [] → (∀ c ∈ wlast, pyIsSpace c = false) →
      text_to_morse (pre ++ ((wordChunks ps ++ wlast) ++ post)) =
        joinWith wordSep ((ps.map Prod.fst ++ [wlast]).map
          (fun w => joinWith [' '] (encodeWord w)))) ∧
    (∀ ws : List (List Char), ws ≠ [] → (∀ w ∈ ws, w ≠ [] ∧ ∀ c ∈ w, pyIsSpace c = false) →
      text_to_morse (joinWith [' '] ws) =
        joinWith wordSep (ws.map (fun w => joinWith [' '] (encodeWord w)))) ∧
    text_to_morse (("HI THERE").toList) = (".... .. / - .... . .-. .").toList ∧
    morse_to_text ((".... .. / - .... . .-. .").toList) = ("HI THERE").toList := by
  refine ⟨?_, ?_, fun ws hne hw => text_to_morse_words hne hw, by decide, by decide⟩
  · intro s hs
    unfold text_to_morse
    rw [show pyStrip s = [] by
      unfold pyStrip
      rw [List.dropWhile_eq_nil_iff.mpr hs]
      rfl]
    rfl
  · intro pre post ps wlast hpre hpost hps hwne hwns
    obtain ⟨d, hd, hdm⟩ := getLast?_mem_self hwne
    have hlast : (wordChunks ps ++ wlast).getLast? = some d := by
      rw [List.getLast?_append, hd]
      rfl
    have hhead : ∃ c, (wordChunks ps ++ wlast).head? = some c ∧ pyIsSpace c = false := by
      cases ps with
      | nil =>
        cases wlast with
        | nil => exact absurd rfl hwne
        | cons c t => exact ⟨c, rfl, hwns c (by simp)⟩
      | cons p ps' =>
        obtain ⟨hp1, hp2, _, _⟩ := hps p (by simp)
        cases hpv : p.1 with
        | nil => exact absurd hpv hp1
        | cons c t =>
          refine ⟨c, ?_, hp2 c (by rw [hpv]; simp)⟩
          show ((p.1 ++ (p.2 ++ wordChunks ps')) ++ wlast).head? = some c
          rw [hpv]
          rfl
    obtain ⟨c, hc1, hc2⟩ := hhead
    unfold text_to_morse
    rw [pyStrip_spaces_around hpre hpost hc1 hc2 hlast (hwns d hdm)]
    rw [show wordChunks ps ++ wlast = wordChunks ps ++ (wlast ++ []) by rw [List.append_nil]]
    rw [splitWs_chunks ps wlast [] hps hwne hwns (by simp)]

/-- C8, witness: the empty-output law on `"  "`, the general run law on a
line with leading space, a tab-and-space separator run and trailing space,
and the single-space join law on a one-word line. -/
theorem claim_C8_witness :
    text_to_morse (("  ").toList) = [] ∧
    text_to_morse (((" ").toList) ++
        ((wordChunks [(("ab").toList, ("\t ").toList)] ++ ("cd").toList) ++ ((" ").toList))) =
      joinWith wordSep (([(("ab").toList, ("\t ").toList)].map Prod.fst ++ [("cd").toList]).map
        (fun w => joinWith [' '] (encodeWord w))) ∧
    text_to_morse (joinWith [' '] [("A").toList]) =
      joinWith wordSep ([("A").toList].map (fun w => joinWith [' '] (encodeWord w))) :=
  ⟨claim_C8.1 (("  ").toList) (by decide),
   claim_C8.2.1 ((" ").toList) ((" ").toList) [(("ab").toList, ("\t ").toList)] (("cd").toList)
     (by decide) (by decide) (by decide) (by decide) (by decide),
   claim_C8.2.2.1 [("A").toList] (by decide) (by decide)⟩

/-- Every character of the first piece belongs to the join. -/
theorem mem_joinWith_left {sep m0 : List Char} (rest : List (List Char)) :
    ∀ {c : Char}, c ∈ m0 → c ∈ joinWith sep (m0 :: rest) := by
  intro c hc
  cases rest with
  | nil => exact hc
  | cons x rs =>
    rw [joinWith_cons₂]
    exact List.mem_append.mpr (Or.inl (List.mem_append.mpr (Or.inl hc)))

/-- The encoded form of a nonempty list of nonempty in-table words is
classified as a Morse line. -/
theorem is_morse_line_join {ws : List (List Char)} (hne : ws ≠ [])
    (hdom : ∀ w ∈ ws, w ≠ [] ∧ ∀ c ∈ w, (lookupTM (pyUpper c)).isSome = true) :
    is_morse_line (joinWith wordSep (ws.map (fun w => joinWith [' '] (w.map codeOf)))) =
      true := by
  cases ws with
  | nil => exact absurd rfl hne
  | cons w0 rest =>
    have hgood : ∀ m ∈ (w0 :: rest).map (fun w => joinWith [' '] (w.map codeOf)), GoodSeg m := by
      intro m hm
      obtain ⟨w, hw, rfl⟩ := List.mem_map.mp hm
      exact morseWord_good (hdom w hw).1 (hdom w hw).2
    have hmsne : (w0 :: rest).map (fun w => joinWith [' '] (w.map codeOf)) ≠ [] := by simp
    have hstrip := join_words_strip hmsne hgood
    have hm0 : GoodSeg (joinWith [' '] (w0.map codeOf)) :=
      hgood (joinWith [' '] (w0.map codeOf)) (by simp)
    have hJne : joinWith wordSep ((w0 :: rest).map (fun w => joinWith [' '] (w.map codeOf))) ≠
        [] := joinWith_ne_nil _ hm0.1
    unfold is_morse_line
    rw [hstrip]
    rw [Bool.and_eq_true, Bool.and_eq_true]
    refine ⟨⟨?_, ?_⟩, ?_⟩
    · have hie : (joinWith wordSep
          ((w0 :: rest).map (fun w => joinWith [' '] (w.map codeOf)))).isEmpty = false := by
        cases hJv : joinWith wordSep ((w0 :: rest).map (fun w => joinWith [' '] (w.map codeOf)))
        · exact absurd hJv hJne
        · rfl
      rw [hie]
      rfl
    · rw [List.all_eq_true]
      intro ch hch
      rcases mem_joinWith hch with h1 | ⟨m, hm, hchm⟩
      · rw [wordSep_eq] at h1
        have h2 : ch = ' ' ∨ ch = '/' := by
          rcases List.mem_cons.mp h1 with h2 | h2
          · exact Or.inl h2
          · rcases List.mem_cons.mp h2 with h3 | h3
            · exact Or.inr h3
            · rcases List.mem_cons.mp h3 with h4 | h4
              · exact Or.inl h4
              · simp at h4
        rcases h2 with rfl | rfl <;> decide
      · obtain ⟨w, hw, rfl⟩ := List.mem_map.mp hm
        rcases mem_word_morse (hdom w hw).2 ch hchm with h | h | h <;> subst h <;> decide
    · rw [List.any_eq_true]
      obtain ⟨_, _, ⟨chh, hh1, hh2⟩, _⟩ := hm0
      have hchm : chh ∈ joinWith [' '] (w0.map codeOf) :=
        List.mem_of_mem_head? (by rw [hh1]; rfl)
      have hdot : chh = '.' ∨ chh = '-' := by
        rcases mem_word_morse (hdom w0 (by simp)).2 chh hchm with h | h | h
        · exact Or.inl h
        · exact Or.inr h
        · subst h
          exact absurd hh2 (by decide)
      refine ⟨chh, mem_joinWith_left (rest.map (fun w => joinWith [' '] (w.map codeOf))) hchm, ?_⟩
      rcases hdot with rfl | rfl <;> decide

/-- C10: any line with nonempty trimmed form whose non-whitespace characters
all have (after uppercasing) a symbol-table entry encodes to a line that
`is_morse_line` classifies as Morse. -/
theorem claim_C10 (s : List Char) (h1 : pyStrip s ≠ [])
    (h2 : ∀ c ∈ s, pyIsSpace c = false → (lookupTM c.toUpper).isSome = true) :
    is_morse_line (text_to_morse s) = true := by
  have hpre : pyStrip s <+: s.dropWhile pyIsSpace := by
    unfold pyStrip
    have hsuf : (s.dropWhile pyIsSpace).reverse.dropWhile pyIsSpace <:+
        (s.dropWhile pyIsSpace).reverse := List.dropWhile_suffix pyIsSpace
    have hrev := List.reverse_prefix.mpr hsuf
    rw [List.reverse_reverse] at hrev
    exact hrev
  have hsub : ∀ x ∈ pyStrip s, x ∈ s := by
    intro x hx
    have hsl : List.Sublist (pyStrip s) s :=
      (hpre.sublist).trans (List.dropWhile_suffix pyIsSpace).sublist
    exact hsl.subset hx
  have hwords : ∀ w ∈ pySplitWs (pyStrip s),
      w ≠ [] ∧ ∀ ch ∈ w, (lookupTM ch.toUpper).isSome = true := by
    intro w hw
    obtain ⟨hwne, hwc⟩ := pySplitWs_sound w hw
    refine ⟨hwne, fun ch hch => ?_⟩
    obtain ⟨hns, hmem⟩ := hwc ch hch
    exact h2 ch (hsub ch hmem) hns
  have hwords' : ∀ w ∈ pySplitWs (pyStrip s),
      w ≠ [] ∧ ∀ ch ∈ w, (lookupTM (pyUpper ch)).isSome = true := by
    intro w hw
    obtain ⟨hwne, hwc⟩ := hwords w hw
    refine ⟨hwne, fun ch hch => ?_⟩
    rw [pyUpper_eq_toUpper_of_dom (hwc ch hch)]
    exact hwc ch hch
  cases hst : pyStrip s with
  | nil => exact absurd hst h1
  | cons c t' =>
    have hc : pyIsSpace c = false := by
      rw [hst] at hpre
      obtain ⟨k, hk⟩ := hpre
      exact dropWhile_head_false hk.symm
    have hsne : pySplitWs (pyStrip s) ≠ [] := by
      rw [hst]
      unfold pySplitWs
      rw [show splitWsAux (c :: t') [] = splitWsAux t' [c] by simp [splitWsAux, hc]]
      exact splitWsAux_ne_nil t' [c] (by simp)
    unfold text_to_morse
    have hmapeq : (pySplitWs (pyStrip s)).map (fun w => joinWith [' '] (encodeWord w)) =
        (pySplitWs (pyStrip s)).map (fun w => joinWith [' '] (w.map codeOf)) :=
      List.map_congr_left (fun w hw => by rw [encodeWord_eq_map (hwords' w hw).2])
    rw [hmapeq]
    exact is_morse_line_join hsne hwords'

/-- C10, witness: the encoding of `"sos"` is classified as a Morse line. -/
theorem claim_C10_witness : is_morse_line (text_to_morse (("sos").toList)) = true :=
  claim_C10 (("sos").toList) (by decide) (by decide)

end MorseSpec
